import Mathlib

/-!
Verification development for the `stdnn_platform` repository.

The experiment-orchestration core (`src/stdnn/experiments/experiment.py`) manipulates
nested Python dictionaries by reference: top-level `dict(...)` calls make shallow copies
while `dictionary_update_deep` writes through shared sub-dictionaries in place.  To make
aliasing and in-place mutation observable we embed Python dictionaries into a small
heap model: a heap is a list of dictionaries, an address is an index into that list, and
a dictionary value is either a primitive (int / float / str) or a reference to another
dictionary.  Pure parts of the code (label generation, the repeat loop, the result-set
collation, `invest/store.py`) are embedded directly as functions.
-/

/-- A primitive Python value as it occurs in experiment configurations:
an `int`, a `float` (modelled as an exact rational), or a `str`. -/
inductive PyPrim where
  | int (n : ℤ)
  | float (q : ℚ)
  | str (s : String)
deriving DecidableEq

/-- A Python dictionary value: a primitive, or a reference to another dictionary
living on the heap. -/
inductive PyVal where
  | prim (p : PyPrim)
  | ref (a : ℕ)
deriving DecidableEq

/-- A Python dictionary: an association list of string keys to values
(keys are unique in a real dict; the operations below use first-occurrence
semantics, which agrees with unique keys). -/
abbrev PyDict := List (String × PyVal)

/-- The heap of dictionary objects: address `a` denotes the `a`-th entry. -/
abbrev PyHeap := List PyDict

/-- Dictionary lookup: `d.get(key)`, `none` when the key is absent. -/
def dictFind : PyDict → String → Option PyVal
  | [], _ => none
  | (k, w) :: rest, key => if k = key then some w else dictFind rest key

/-- The keys of a dictionary, in insertion order. -/
def dictKeys : PyDict → List String
  | [] => []
  | (k, _) :: rest => k :: dictKeys rest

/-- Replace the value stored at `key`, leaving the dictionary unchanged when the
key is absent (the deep-update below only writes to keys it has just found). -/
def dictReplace : PyDict → String → PyVal → PyDict
  | [], _, _ => []
  | (k, w) :: rest, key, v =>
    if k = key then (k, v) :: rest else (k, w) :: dictReplace rest key v

/-- Python `d[key] = v`: replace the value when the key is present, append a new
entry otherwise. -/
def dictSet (d : PyDict) (key : String) (v : PyVal) : PyDict :=
  if key ∈ dictKeys d then dictReplace d key v else d ++ [(key, v)]

/-- Read the dictionary at address `a`. -/
def getAt (h : PyHeap) (a : ℕ) : Option PyDict := h[a]?

/-- Apply `f` to the dictionary at address `a` (in-place object mutation). -/
def heapModify : PyHeap → ℕ → (PyDict → PyDict) → PyHeap
  | [], _, _ => []
  | d :: t, 0, f => f d :: t
  | d :: t, a + 1, f => d :: heapModify t a f

/-- In-place `h[a][key] = v` restricted to existing keys (see `dictReplace`). -/
def replaceKeyAt (h : PyHeap) (a : ℕ) (key : String) (v : PyVal) : PyHeap :=
  heapModify h a (fun d => dictReplace d key v)

/-- In-place `h[a][key] = v` with Python insert-or-replace semantics. -/
def setKeyAt (h : PyHeap) (a : ℕ) (key : String) (v : PyVal) : PyHeap :=
  heapModify h a (fun d => dictSet d key v)

/-- Allocate a fresh dictionary object, returning the new heap and its address:
this is what a Python `dict(d)` shallow copy does (fresh top-level object, entry
list — including references — copied verbatim). -/
def alloc (h : PyHeap) (d : PyDict) : PyHeap × ℕ := (h ++ [d], h.length)

/-- Read a key of the dictionary at address `a`. -/
def dictFindAt (h : PyHeap) (a : ℕ) (key : String) : Option PyVal :=
  match getAt h a with
  | some d => dictFind d key
  | none => none

/-- The keys of the dictionary at address `a`. -/
def keysAt (h : PyHeap) (a : ℕ) : List String :=
  match getAt h a with
  | some d => dictKeys d
  | none => []

/-- Whether a value is a reference below the bound `L` (primitives qualify). -/
def PyVal.refBelow : PyVal → ℕ → Prop
  | .ref r, L => r < L
  | .prim _, _ => True

instance (w : PyVal) (L : ℕ) : Decidable (w.refBelow L) :=
  match w with
  | .ref r => inferInstanceAs (Decidable (r < L))
  | .prim _ => inferInstanceAs (Decidable True)

/-- A closed heap: every reference stored in any dictionary points below `L`.
Configuration heaps read from JSON-like templates satisfy this with `L = h.length`. -/
def heapClosedBelow (h : PyHeap) (L : ℕ) : Prop :=
  ∀ d ∈ h, ∀ kw ∈ d, PyVal.refBelow (Prod.snd kw) L

instance (h : PyHeap) (L : ℕ) : Decidable (heapClosedBelow h L) :=
  inferInstanceAs (Decidable (∀ d ∈ h, ∀ kw ∈ d, PyVal.refBelow (Prod.snd kw) L))

/-- No dictionary on the heap holds a reference to address `c`: mutations that
start from any other root can then never reach the object at `c`. -/
def noRefTo (h : PyHeap) (c : ℕ) : Prop :=
  ∀ d ∈ h, ∀ kw ∈ d, Prod.snd kw ≠ PyVal.ref c

instance (h : PyHeap) (c : ℕ) : Decidable (noRefTo h c) :=
  inferInstanceAs (Decidable (∀ d ∈ h, ∀ kw ∈ d, Prod.snd kw ≠ PyVal.ref c))

/-- One pass of the deep update over a snapshot `es` of the entries of the
dictionary at address `a`: entries whose key matches are overwritten in place,
entries holding a reference are descended into via `step`. -/
def dudEntries (step : PyHeap → ℕ → PyHeap) (a : ℕ) (key : String) (v : PyPrim) :
    PyHeap → PyDict → PyHeap
  | h, [] => h
  | h, (k, w) :: rest =>
    dudEntries step a key v
      (if k = key then replaceKeyAt h a key (PyVal.prim v)
       else
         match w with
         | .ref r => step h r
         | .prim _ => h)
      rest

/-- Fuel-indexed recursive worker of the deep update.  The fuel only bounds the
nesting depth that is descended into; every entry of a visited dictionary is
always processed.  Defined by `Nat.rec` so that it evaluates by kernel reduction. -/
def dudGo (key : String) (v : PyPrim) (fuel : ℕ) : PyHeap → ℕ → PyHeap :=
  Nat.rec (motive := fun _ => PyHeap → ℕ → PyHeap)
    (fun h _ => h)
    (fun _ ih h a =>
      match getAt h a with
      | none => h
      | some d => dudEntries ih a key v h d)
    fuel

/-- Modelled from the spec: `dictionary_update_deep` from
`stdnn/experiments/utils.py`, which is not under `src/`.  Per spec §4.2 the
builder "locates that stage's `params` subtree, and deep-writes `value` at the
key `name` inside that subtree"; the call site
`dictionary_update_deep(current_config.get(key), param, value)` (experiment.py
line 195) discards the return value, so the update must act by mutating the
nested dictionaries in place.  We model it as: recursively walk the nested
dictionary rooted at the given value and overwrite, in place, the value of every
entry whose key equals `key`; non-dictionary roots are left untouched.  The fuel
`h.length + 1` covers any acyclic chain of references on the heap. -/
def dictionary_update_deep (h : PyHeap) (root : PyVal) (key : String) (v : PyPrim) : PyHeap :=
  match root with
  | .ref a => dudGo key v (h.length + 1) h a
  | .prim _ => h

/-- The errors the configuration machinery can raise.  `valueError` models the
Python `ValueError`s raised by `ExperimentConfigManager.configurations`
(experiment.py lines 192 and 194); these realize the spec's
`UnboundHyperparameter`.  `duplicateLabel` models the spec's `DuplicateLabel`
(spec §4.4/§7; its carrier, `ExperimentResultSet`, lives in
`stdnn/experiments/results.py`, which is not under `src/`). -/
inductive ExpErr where
  | valueError (msg : String)
  | duplicateLabel (label : String)
deriving DecidableEq

/-- A ConfigSpace hyperparameter as the orchestration core sees it: a name and
the optional stage key stored as `hyperparameter.meta["config"]`
(read at experiment.py line 190). -/
structure Hyperparameter where
  name : String
  metaConfig : Option String
deriving DecidableEq

/-- `self._config_space.get_hyperparameter(param).meta.get("config")` —
resolve a hyperparameter name to its declared stage key, `none` when the
hyperparameter has no `config` entry in its meta dictionary. -/
def metaOf (space : List Hyperparameter) (p : String) : Option String :=
  match space.find? (fun hp => hp.name == p) with
  | some hp => hp.metaConfig
  | none => none

/-- Round-half-to-even on rationals, the tie-breaking rule of Python's
built-in `round`, written on the numerator/denominator so it evaluates by
kernel reduction: with `f = ⌊q⌋` and remainder `r = num - f * den` the
fractional part is `r / den`, compared against `1 / 2` via `2 * r ≶ den`. -/
def roundHalfToEven (q : ℚ) : ℤ :=
  let f := q.floor
  let r := q.num - f * (q.den : ℤ)
  if 2 * r < (q.den : ℤ) then f
  else if 2 * r > (q.den : ℤ) then f + 1
  else if f % 2 = 0 then f else f + 1

/-- Python `round(value, 6)` on a float, modelled exactly on rationals:
`q * 10 ^ 6` is formed as `mkRat (num * 10 ^ 6) den`, rounded half-to-even to
an integer, and divided back by `10 ^ 6`. -/
def round6 (q : ℚ) : ℚ := mkRat (roundHalfToEven (mkRat (q.num * 1000000) q.den)) 1000000

/-- The rendering of one value inside an experiment label: models
`round(value, 6) if isinstance(value, (int, float)) else value` interpolated
into the f-string at experiment.py line 196 (`round` leaves `int`s unchanged,
rounds `float`s to 6 decimal places, and non-numeric values pass through). -/
def showPrim : PyPrim → String
  | .int n => toString n
  | .float q => toString (round6 q)
  | .str s => s

/-- One `name=value` label fragment: `f"{param}={...}"` (experiment.py line 196). -/
def labelEntry (kw : String × PyPrim) : String := kw.1 ++ "=" ++ showPrim kw.2

/-- The Python `ExperimentConfig` object: the heap address of its `_config`
dictionary (`self._config = dict(config)`, experiment.py line 27) and its label. -/
structure ExperimentConfig where
  config : ℕ
  label : String
deriving DecidableEq

/-- The loop body of `ExperimentConfigManager.configurations`
(experiment.py lines 189-196) over the remaining `(param, value)` pairs of one
grid cell: resolve the hyperparameter's stage key from its meta dictionary,
look the stage up in the current configuration, deep-update that stage's
subtree in place, and accumulate the label fragments; at the end the
`ExperimentConfig` constructor takes one more shallow `dict(...)` copy of the
current top-level dictionary (line 27). -/
def buildCellGo (space : List Hyperparameter) :
    PyHeap → ℕ → List (String × PyPrim) → List String →
      Except ExpErr (PyHeap × ℕ × List String)
  | h, c0, [], parts =>
    -- `ExperimentConfig(current_config, ...)`: `self._config = dict(config)`
    match getAt h c0 with
    | some d => .ok (h ++ [d], h.length, parts)
    | none => .error (.valueError "invalid heap address")
  | h, c0, (param, v) :: rest, parts =>
    match metaOf space param with
    | none =>
      .error (.valueError "No meta config value specified for ConfigSpace hyperparameter")
    | some key =>
      match getAt h c0 with
      | none => .error (.valueError "invalid heap address")
      | some d =>
        match dictFind d key with
        | none =>
          .error (.valueError
            ("No dictionary associated with provided meta config value " ++ key))
        | some w =>
          buildCellGo space (dictionary_update_deep h w param v) c0 rest
            (parts ++ [labelEntry (param, v)])

/-- One iteration of the generator `ExperimentConfigManager.configurations`
(experiment.py lines 184-197) for a single grid cell: take the shallow copy
`current_config = dict(self._raw_pipeline_config)` (line 186), apply every
hyperparameter of the cell via `dictionary_update_deep`, and yield the
resulting `ExperimentConfig` with the comma-joined label. -/
def buildConfiguration (h : PyHeap) (tmpl : ℕ) (space : List Hyperparameter)
    (cell : List (String × PyPrim)) : Except ExpErr (PyHeap × ExperimentConfig) :=
  match getAt h tmpl with
  | none => .error (.valueError "invalid heap address")
  | some dt =>
    match buildCellGo space (h ++ [dt]) h.length cell [] with
    | .error e => .error e
    | .ok (h', c, parts) => .ok (h', ⟨c, String.intercalate "," parts⟩)

/-- Association-list lookup on a grid cell (`cell` maps hyperparameter names to
values): used to state when two cells define the same name-to-value mapping. -/
def cellLookup : List (String × PyPrim) → String → Option PyPrim
  | [], _ => none
  | (k, w) :: rest, key => if k = key then some w else cellLookup rest key

/-- Run the (opaque, possibly failing) pipeline once per element of the index
list, counting how many `run_pipeline` invocations actually happen; an
exception stops the loop, as in `Experiment.run` (experiment.py lines 227-233),
where the uncaught exception propagates. -/
def runPipelineSeq {R E : Type} (pipe : ℕ → Except E R) : List ℕ → Except E (List R) × ℕ
  | [] => (.ok [], 0)
  | i :: is =>
    match pipe i with
    | .error e => (.error e, 1)
    | .ok r =>
      match runPipelineSeq pipe is with
      | (.ok rs, n) => (.ok (r :: rs), n + 1)
      | (.error e, n) => (.error e, n + 1)

/-- One iteration of `ExperimentManager.run_experiments` (experiment.py lines
277-281) for a single grid cell: the configuration generator builds the
`ExperimentConfig` (and may raise there), and only then is an `Experiment`
constructed and run `reps` times; the second component counts the pipeline
invocations performed for this configuration. -/
def runOneConfiguration {R E : Type} (h : PyHeap) (tmpl : ℕ)
    (space : List Hyperparameter) (cell : List (String × PyPrim))
    (pipe : ExperimentConfig → ℕ → Except E R) (reps : ℤ) :
    Except (ExpErr ⊕ E) (PyHeap × List R) × ℕ :=
  match buildConfiguration h tmpl space cell with
  | .error e => (.error (.inl e), 0)
  | .ok (h', cfg) =>
    match runPipelineSeq (pipe cfg) (List.range reps.toNat) with
    | (.ok rs, n) => (.ok (h', rs), n)
    | (.error e, n) => (.error (.inr e), n)

/-- A hyperparameter whose binding does not resolve inside the template `dt`:
either its meta dictionary declares no `config` stage key at all, or the
declared stage key is absent from the template's top level. -/
def badBinding (space : List Hyperparameter) (dt : PyDict) (p : String) : Prop :=
  metaOf space p = none ∨ ∃ key, metaOf space p = some key ∧ dictFind dt key = none

/-- The external pipeline as `Experiment.run` sees it (experiment.py lines
228-231): a model class applied to the configuration's model params
(`self._config.model_type(**self._config.get_model_params())`), a manager
class (`self._config.model_manager()`), a binding step
(`model_manager.set_model(model)`), and the single-run entry point
(`model_manager.run_pipeline(self._config)`); the final `ℕ` argument is the
repeat index, standing for whatever run-dependent ambient state (randomness,
data order) the opaque external pipeline consults on its `i`-th invocation. -/
structure Pipeline (Model Manager Cfg R E : Type) where
  modelOf : PyDict → Model
  newManager : Unit → Manager
  setModel : Manager → Model → Manager
  runPipeline : Manager → Cfg → ℕ → Except E R

namespace Experiment

/-- The loop body of `Experiment.run` (experiment.py lines 227-233) over the
remaining repeat indices: each iteration freshly instantiates the model from
the configuration's model params, freshly instantiates the manager, binds the
model, invokes `run_pipeline`, and appends the returned result to the internal
result set (`self._results.add_result(result)`, an ordered append — spec §3:
RunResultSet is "an ordered collection of RunResults").  An exception
propagates immediately, leaving the results collected so far in the second
component (the `Experiment`'s internal `RunResultSet`). -/
def runGo {M Mg C R E : Type} (p : Pipeline M Mg C R E) (cfg : C) (mp : PyDict) :
    List ℕ → List R → Except E Unit × List R
  | [], acc => (.ok (), acc)
  | i :: is, acc =>
    match p.runPipeline (p.setModel (p.newManager ()) (p.modelOf mp)) cfg i with
    | .ok r => runGo p cfg mp is (acc ++ [r])
    | .error e => (.error e, acc)

/-- `Experiment.run(repeat)` (experiment.py lines 217-234): `for run in
range(repeat)` — Python's `range` is empty for any `repeat < 1`, and no
validation precedes the loop (only a `TODO Refactor to add explicit
validation?` comment at line 216). -/
def run {M Mg C R E : Type} (p : Pipeline M Mg C R E) (cfg : C) (mp : PyDict)
    (reps : ℤ) : Except E Unit × List R :=
  runGo p cfg mp (List.range reps.toNat) []

end Experiment

/-- Modelled from the spec: `ExperimentResultSet.add_result` from
`stdnn/experiments/results.py`, which is not under `src/`.  Spec §3: "mapping
from RunConfiguration label → aggregated RunResultSet.  Insertion order
reflects grid-generation order; no key is ever overwritten"; §4.4/§7: inserting
a key that is already present "fails fast with `DuplicateLabel` … rather than
silently overwriting a prior result". -/
def ExperimentResultSet.add_result {β : Type} (s : List (String × β)) (result : β)
    (key : String) : Except ExpErr (List (String × β)) :=
  if key ∈ s.map Prod.fst then .error (.duplicateLabel key)
  else .ok (s ++ [(key, result)])

namespace ExperimentManager

/-- The collation loop of `ExperimentManager.run_experiments` (experiment.py
lines 275-282) over the per-configuration `(label, combined aggregate)` pairs:
each is inserted into the `ExperimentResultSet` via `add_result(…, key=label)`. -/
def collate {β : Type} : List (String × β) → List (String × β) →
    Except ExpErr (List (String × β))
  | [], acc => .ok acc
  | (key, r) :: rest, acc =>
    match ExperimentResultSet.add_result acc r key with
    | .error e => .error e
    | .ok acc' => collate rest acc'

/-- `run_experiments`' result collation, started from the fresh
`ExperimentResultSet()` of line 275. -/
def run_experiments_collation {β : Type} (items : List (String × β)) :
    Except ExpErr (List (String × β)) :=
  collate items []

end ExperimentManager

namespace ExperimentConfig

/-- `self._config.get(stage).get("params")` — resolve a stage's `params`
entry to the address of the stored params dictionary (`none` on a missing
key or a non-dictionary value, where Python would raise). -/
def stage_params_addr (h : PyHeap) (c : ℕ) (stage : String) : Option ℕ :=
  match getAt h c with
  | none => none
  | some d =>
    match dictFind d stage with
    | some (.ref a) =>
      match getAt h a with
      | none => none
      | some ds =>
        match dictFind ds "params" with
        | some (.ref b) => some b
        | _ => none
    | _ => none

/-- `dict(self._config.get(stage).get("params"))` — the getter pattern of
`get_model_params` / `get_preprocessing_params` / `get_training_params` /
`get_validation_params` (experiment.py lines 55-101): a freshly allocated
shallow copy of the stored params dictionary. -/
def get_stage_params_copy (h : PyHeap) (c : ℕ) (stage : String) :
    Option (PyHeap × ℕ) :=
  match stage_params_addr h c stage with
  | none => none
  | some b =>
    match getAt h b with
    | none => none
    | some d => some (alloc h d)

/-- `ExperimentConfig.get_model_params` (experiment.py line 65):
`return dict(self._config.get("model").get("params"))`. -/
def get_model_params (h : PyHeap) (c : ℕ) : Option (PyHeap × ℕ) :=
  get_stage_params_copy h c "model"

/-- `ExperimentConfig.get_preprocessing_params` (experiment.py line 77). -/
def get_preprocessing_params (h : PyHeap) (c : ℕ) : Option (PyHeap × ℕ) :=
  get_stage_params_copy h c "preprocess"

/-- `ExperimentConfig.get_training_params` (experiment.py line 89). -/
def get_training_params (h : PyHeap) (c : ℕ) : Option (PyHeap × ℕ) :=
  get_stage_params_copy h c "train"

/-- `ExperimentConfig.get_validation_params` (experiment.py line 101). -/
def get_validation_params (h : PyHeap) (c : ℕ) : Option (PyHeap × ℕ) :=
  get_stage_params_copy h c "validate"

/-- `ExperimentConfig.get_testing_params` (experiment.py line 113):
`return self._config.get("test").get("params")` — unlike the other four
getters there is no `dict(...)` call, so the *stored* params dictionary
itself is returned. -/
def get_testing_params (h : PyHeap) (c : ℕ) : Option ℕ :=
  stage_params_addr h c "test"

end ExperimentConfig

/-- A concrete five-stage configuration heap used to witness the
parameter-getter theorem: the `_config` dictionary at address 0 links each of
the five stages (`model`, `preprocess`, `train`, `validate`, `test`) to a
`{"params": {...}}` subtree. -/
def paramsWitnessHeap : PyHeap :=
  [[("model", .ref 1), ("preprocess", .ref 3), ("train", .ref 5), ("validate", .ref 7),
    ("test", .ref 9)],
   [("params", .ref 2)], [("lr", .prim (.int 1))],
   [("params", .ref 4)], [("window", .prim (.int 3))],
   [("params", .ref 6)], [("epochs", .prim (.int 5))],
   [("params", .ref 8)], [("freq", .prim (.int 7))],
   [("params", .ref 10)], [("bs", .prim (.int 2))]]

/-- A value guaranteed to differ from the given current value of a
dictionary entry: used to exhibit a mutation that is visible through an
aliased dictionary. -/
def differentFrom : Option PyVal → PyVal
  | some (.prim (.int n)) => .prim (.int (n + 1))
  | some (.prim (.float _)) => .prim (.int 0)
  | some (.prim (.str _)) => .prim (.int 0)
  | some (.ref _) => .prim (.int 0)
  | none => .prim (.int 0)

namespace Invest

/-- The errors reachable from `invest.store.Store` construction:
Python `TypeError` and `NameError`. -/
inductive StoreErr where
  | typeError
  | nameError
deriving DecidableEq

/-- The `Store` object of `src/invest/store.py` lines 7-16: its seven
constructor arguments stored as attributes (company collections are Python
lists; the remaining arguments are opaque values). -/
structure Store (α : Type) where
  main_data : α
  all_companies : List α
  consumer_companies : List α
  general_companies : List α
  margin_of_safety : α
  beta : α
  years : α

/-- The body of `Store.process` (store.py lines 26-41), were it ever entered:
for the first company the loop sets `year = 2012; years = 2017` and then
executes `for year in years:` — iterating over the `int` `2017` raises
`TypeError`; when `all_companies` is empty the loop body never runs and
`print(indexes)` (line 41) reads the never-assigned local `indexes`, raising
`NameError`.  Either way the body cannot complete. -/
def Store.process_body {α : Type} (self : Store α) : Except StoreErr Unit :=
  match self.all_companies with
  | [] => .error .nameError
  | _ :: _ => .error .typeError

/-- A call of the bound method `self.process(…)` with `extraPositional`
positional arguments beyond the implicit `self`.  `def process(self):`
(store.py line 26) declares a single parameter, so CPython raises `TypeError`
during argument binding — before the body executes — whenever any extra
positional argument is passed. -/
def Store.process_boundCall {α : Type} (self : Store α) (extraPositional : ℕ) :
    Except StoreErr Unit :=
  if extraPositional = 0 then Store.process_body self else .error .typeError

/-- `Store.__init__` (store.py lines 7-17): store the seven arguments as
attributes, then execute the final statement `self.process(self)` — a bound
call passing one extra positional argument. -/
def Store.init {α : Type} (main_data : α)
    (all_companies consumer_companies general_companies : List α)
    (margin_of_safety beta years : α) : Except StoreErr (Store α) :=
  let self : Store α := ⟨main_data, all_companies, consumer_companies,
    general_companies, margin_of_safety, beta, years⟩
  match Store.process_boundCall self 1 with
  | .ok _ => .ok self
  | .error e => .error e

end Invest

theorem dudGo_zero (key : String) (v : PyPrim) (h : PyHeap) (a : ℕ) :
    dudGo key v 0 h a = h := rfl

theorem dudGo_succ (key : String) (v : PyPrim) (fuel : ℕ) (h : PyHeap) (a : ℕ) :
    dudGo key v (fuel + 1) h a =
      match getAt h a with
      | none => h
      | some d => dudEntries (dudGo key v fuel) a key v h d := rfl

theorem dictFind_mem {d : PyDict} {key : String} {w : PyVal}
    (hfind : dictFind d key = some w) : (key, w) ∈ d := by
  induction d with
  | nil => exact Option.noConfusion hfind
  | cons kw rest ih =>
    obtain ⟨k, w'⟩ := kw
    by_cases hk : k = key
    · subst hk
      simp [dictFind] at hfind
      simp [hfind]
    · rw [dictFind, if_neg hk] at hfind
      exact List.mem_cons_of_mem _ (ih hfind)

theorem dictFind_isSome_iff {d : PyDict} {key : String} :
    (dictFind d key).isSome = true ↔ key ∈ dictKeys d := by
  induction d with
  | nil => simp [dictFind, dictKeys]
  | cons kw rest ih =>
    obtain ⟨k, w⟩ := kw
    by_cases hk : k = key
    · subst hk; simp [dictFind, dictKeys]
    · rw [dictFind, if_neg hk, dictKeys]
      simp only [List.mem_cons]
      rw [ih]
      constructor
      · intro h; exact Or.inr h
      · intro h
        rcases h with h | h
        · exact absurd h.symm hk
        · exact h

theorem dictFindAt_def {h : PyHeap} {x : ℕ} {d : PyDict} (hga : getAt h x = some d)
    (key : String) : dictFindAt h x key = dictFind d key := by
  rw [dictFindAt, hga]

theorem keysAt_def {h : PyHeap} {x : ℕ} {d : PyDict} (hga : getAt h x = some d) :
    keysAt h x = dictKeys d := by
  rw [keysAt, hga]

theorem dictKeys_replace (d : PyDict) (key : String) (v : PyVal) :
    dictKeys (dictReplace d key v) = dictKeys d := by
  induction d with
  | nil => rfl
  | cons kw rest ih =>
    obtain ⟨k, w⟩ := kw
    by_cases hk : k = key
    · rw [dictReplace, if_pos hk]; simp [dictKeys]
    · rw [dictReplace, if_neg hk, dictKeys, dictKeys, ih]

theorem dictFind_replace_self {d : PyDict} {key : String} (v : PyVal)
    (hmem : key ∈ dictKeys d) : dictFind (dictReplace d key v) key = some v := by
  induction d with
  | nil => simp [dictKeys] at hmem
  | cons kw rest ih =>
    obtain ⟨k, w⟩ := kw
    by_cases hk : k = key
    · subst hk; simp [dictReplace, dictFind]
    · rw [dictReplace, if_neg hk, dictFind, if_neg hk]
      rw [dictKeys, List.mem_cons] at hmem
      rcases hmem with h | h
      · exact absurd h.symm hk
      · exact ih h

theorem dictFind_replace_ne (d : PyDict) {key k' : String} (v : PyVal)
    (hne : k' ≠ key) : dictFind (dictReplace d key v) k' = dictFind d k' := by
  induction d with
  | nil => rfl
  | cons kw rest ih =>
    obtain ⟨k, w⟩ := kw
    by_cases hk : k = key
    · subst hk
      rw [dictReplace, if_pos rfl, dictFind, dictFind, if_neg (fun h => hne h.symm),
        if_neg (fun h => hne h.symm)]
    · rw [dictReplace, if_neg hk, dictFind, dictFind]
      by_cases hk' : k = k'
      · rw [if_pos hk', if_pos hk']
      · rw [if_neg hk', if_neg hk', ih]

theorem dictReplace_mem {d : PyDict} {key : String} {v : PyVal} {kw : String × PyVal}
    (hmem : kw ∈ dictReplace d key v) : kw ∈ d ∨ kw = (key, v) := by
  induction d with
  | nil => exact absurd hmem (List.not_mem_nil _)
  | cons kw' rest ih =>
    obtain ⟨k, w⟩ := kw'
    by_cases hk : k = key
    · subst hk
      rw [dictReplace, if_pos rfl] at hmem
      rcases List.mem_cons.mp hmem with h | h
      · right; simp [h]
      · left; exact List.mem_cons_of_mem _ h
    · rw [dictReplace, if_neg hk] at hmem
      rcases List.mem_cons.mp hmem with h | h
      · left; simp [h]
      · rcases ih h with h' | h'
        · left; exact List.mem_cons_of_mem _ h'
        · right; exact h'

theorem dictFind_append_absent {d : PyDict} {key : String} (v : PyVal)
    (habs : key ∉ dictKeys d) : dictFind (d ++ [(key, v)]) key = some v := by
  induction d with
  | nil => simp [dictFind]
  | cons kw rest ih =>
    obtain ⟨k, w⟩ := kw
    rw [dictKeys, List.mem_cons] at habs
    push_neg at habs
    rw [List.cons_append, dictFind, if_neg (fun h => habs.1 h.symm)]
    exact ih habs.2

theorem dictFind_set_self (d : PyDict) (key : String) (v : PyVal) :
    dictFind (dictSet d key v) key = some v := by
  unfold dictSet
  by_cases hmem : key ∈ dictKeys d
  · rw [if_pos hmem]; exact dictFind_replace_self v hmem
  · rw [if_neg hmem]; exact dictFind_append_absent v hmem

theorem getAt_some_lt {h : PyHeap} {a : ℕ} {d : PyDict} (hga : getAt h a = some d) :
    a < h.length := by
  by_contra hlt
  push_neg at hlt
  rw [getAt, List.getElem?_eq_none hlt] at hga
  exact Option.noConfusion hga

theorem getAt_mem {h : PyHeap} {a : ℕ} {d : PyDict} (hga : getAt h a = some d) :
    d ∈ h := by
  obtain ⟨hn, rfl⟩ := List.getElem?_eq_some.mp hga
  exact List.getElem_mem hn

theorem getAt_append_lt (h : PyHeap) (d : PyDict) {a : ℕ} (ha : a < h.length) :
    getAt (h ++ [d]) a = getAt h a := by
  rw [getAt, getAt, List.getElem?_append_left ha]

theorem getAt_append_self (h : PyHeap) (d : PyDict) :
    getAt (h ++ [d]) h.length = some d := by
  rw [getAt, List.getElem?_concat_length]

theorem getAt_isSome_of_lt {h : PyHeap} {a : ℕ} (ha : a < h.length) :
    ∃ d, getAt h a = some d := by
  rw [getAt]
  exact ⟨h[a], List.getElem?_eq_some.mpr ⟨ha, rfl⟩⟩

theorem heapModify_length (h : PyHeap) (a : ℕ) (f : PyDict → PyDict) :
    (heapModify h a f).length = h.length := by
  induction h generalizing a with
  | nil => rfl
  | cons d t ih =>
    cases a with
    | zero => simp [heapModify]
    | succ a => simp [heapModify, ih]

theorem getAt_heapModify_self (h : PyHeap) (a : ℕ) (f : PyDict → PyDict) :
    getAt (heapModify h a f) a = (getAt h a).map f := by
  induction h generalizing a with
  | nil => cases a <;> simp [heapModify, getAt]
  | cons d t ih =>
    cases a with
    | zero => simp [heapModify, getAt]
    | succ a => simpa [heapModify, getAt] using ih a

theorem getAt_heapModify_ne (h : PyHeap) {a x : ℕ} (f : PyDict → PyDict)
    (hne : x ≠ a) : getAt (heapModify h a f) x = getAt h x := by
  induction h generalizing a x with
  | nil => cases a <;> simp [heapModify, getAt]
  | cons d t ih =>
    cases a with
    | zero =>
      cases x with
      | zero => exact absurd rfl hne
      | succ x => simp [heapModify, getAt]
    | succ a =>
      cases x with
      | zero => simp [heapModify, getAt]
      | succ x => simpa [heapModify, getAt] using ih (fun hxa => hne (by omega))

theorem heapModify_mem {h : PyHeap} {a : ℕ} {f : PyDict → PyDict} {d : PyDict}
    (hmem : d ∈ heapModify h a f) : d ∈ h ∨ ∃ d' ∈ h, d = f d' := by
  induction h generalizing a with
  | nil => exact absurd hmem (List.not_mem_nil _)
  | cons d0 t ih =>
    cases a with
    | zero =>
      rcases List.mem_cons.mp hmem with h' | h'
      · right; exact ⟨d0, by simp, h'⟩
      · left; exact List.mem_cons_of_mem _ h'
    | succ a =>
      rcases List.mem_cons.mp hmem with h' | h'
      · left; simp [h']
      · rcases ih h' with h'' | ⟨d', hd', he⟩
        · left; exact List.mem_cons_of_mem _ h''
        · right; exact ⟨d', List.mem_cons_of_mem _ hd', he⟩

theorem replaceKeyAt_length (h : PyHeap) (a : ℕ) (key : String) (v : PyVal) :
    (replaceKeyAt h a key v).length = h.length := heapModify_length h a _

theorem getAt_replaceKeyAt_ne (h : PyHeap) {a x : ℕ} (key : String) (v : PyVal)
    (hne : x ≠ a) : getAt (replaceKeyAt h a key v) x = getAt h x :=
  getAt_heapModify_ne h _ hne

theorem keysAt_replaceKeyAt (h : PyHeap) (a : ℕ) (key : String) (v : PyVal) (x : ℕ) :
    keysAt (replaceKeyAt h a key v) x = keysAt h x := by
  by_cases hx : x = a
  · subst hx
    rw [keysAt, keysAt, replaceKeyAt, getAt_heapModify_self]
    cases getAt h x with
    | none => rfl
    | some d => simp [dictKeys_replace]
  · rw [keysAt, keysAt, replaceKeyAt, getAt_heapModify_ne _ _ hx]

theorem dictFindAt_replaceKeyAt_ne (h : PyHeap) (a x : ℕ) {key k' : String} (v : PyVal)
    (hne : k' ≠ key) : dictFindAt (replaceKeyAt h a key v) x k' = dictFindAt h x k' := by
  by_cases hx : x = a
  · subst hx
    rw [dictFindAt, dictFindAt, replaceKeyAt, getAt_heapModify_self]
    cases getAt h x with
    | none => rfl
    | some d => simp [dictFind_replace_ne d v hne]
  · rw [dictFindAt, dictFindAt, replaceKeyAt, getAt_heapModify_ne _ _ hx]

theorem dictFindAt_replaceKeyAt_self (h : PyHeap) (a : ℕ) (key : String) (v : PyVal)
    (hmem : key ∈ keysAt h a) : dictFindAt (replaceKeyAt h a key v) a key = some v := by
  rw [dictFindAt, replaceKeyAt, getAt_heapModify_self]
  rw [keysAt] at hmem
  cases hga : getAt h a with
  | none => rw [hga] at hmem; exact absurd hmem (List.not_mem_nil _)
  | some d =>
    rw [hga] at hmem
    simp [dictFind_replace_self v hmem]

theorem noRefTo_replaceKeyAt {h : PyHeap} {c : ℕ} (a : ℕ) (key : String) (v : PyPrim)
    (hno : noRefTo h c) : noRefTo (replaceKeyAt h a key (PyVal.prim v)) c := by
  intro d hd kw hkw
  rcases heapModify_mem hd with hd' | ⟨d', hd', rfl⟩
  · exact hno d hd' kw hkw
  · rcases dictReplace_mem hkw with hkw' | rfl
    · exact hno d' hd' kw hkw'
    · exact fun h => PyVal.noConfusion h

theorem heapClosedBelow_replaceKeyAt {h : PyHeap} {L : ℕ} (a : ℕ) (key : String) (v : PyPrim)
    (hcl : heapClosedBelow h L) : heapClosedBelow (replaceKeyAt h a key (PyVal.prim v)) L := by
  intro d hd kw hkw
  rcases heapModify_mem hd with hd' | ⟨d', hd', rfl⟩
  · exact hcl d hd' kw hkw
  · rcases dictReplace_mem hkw with hkw' | rfl
    · exact hcl d' hd' kw hkw'
    · trivial

theorem dudEntries_length (step : PyHeap → ℕ → PyHeap) (a : ℕ) (key : String) (v : PyPrim)
    (hstep : ∀ H r, (step H r).length = H.length) :
    ∀ es H, (dudEntries step a key v H es).length = H.length := by
  intro es
  induction es with
  | nil => intro H; rfl
  | cons kw rest ih =>
    intro H
    obtain ⟨k, w⟩ := kw
    cases w with
    | ref r =>
      rw [dudEntries]
      by_cases hk : k = key
      · rw [if_pos hk, ih, replaceKeyAt_length]
      · rw [if_neg hk, ih, hstep]
    | prim p =>
      rw [dudEntries]
      by_cases hk : k = key
      · rw [if_pos hk, ih, replaceKeyAt_length]
      · rw [if_neg hk, ih]

theorem dudGo_length (key : String) (v : PyPrim) :
    ∀ fuel H a, (dudGo key v fuel H a).length = H.length := by
  intro fuel
  induction fuel with
  | zero => intro H a; rfl
  | succ fuel ih =>
    intro H a
    rw [dudGo_succ]
    cases getAt H a with
    | none => rfl
    | some d => exact dudEntries_length _ a key v (fun H r => ih H r) d H

theorem dudEntries_find_ne (step : PyHeap → ℕ → PyHeap) (a : ℕ) {key : String} (v : PyPrim)
    (x : ℕ) {k' : String} (hne : k' ≠ key)
    (hstep : ∀ H r, dictFindAt (step H r) x k' = dictFindAt H x k') :
    ∀ es H, dictFindAt (dudEntries step a key v H es) x k' = dictFindAt H x k' := by
  intro es
  induction es with
  | nil => intro H; rfl
  | cons kw rest ih =>
    intro H
    obtain ⟨k, w⟩ := kw
    cases w with
    | ref r =>
      rw [dudEntries]
      by_cases hk : k = key
      · rw [if_pos hk, ih, dictFindAt_replaceKeyAt_ne _ _ _ _ hne]
      · rw [if_neg hk, ih, hstep]
    | prim p =>
      rw [dudEntries]
      by_cases hk : k = key
      · rw [if_pos hk, ih, dictFindAt_replaceKeyAt_ne _ _ _ _ hne]
      · rw [if_neg hk, ih]

theorem dudGo_find_ne {key : String} (v : PyPrim) (x : ℕ) {k' : String} (hne : k' ≠ key) :
    ∀ fuel H a, dictFindAt (dudGo key v fuel H a) x k' = dictFindAt H x k' := by
  intro fuel
  induction fuel with
  | zero => intro H a; rfl
  | succ fuel ih =>
    intro H a
    rw [dudGo_succ]
    cases getAt H a with
    | none => rfl
    | some d => exact dudEntries_find_ne _ a v x hne (fun H r => ih H r) d H

theorem dudEntries_keys (step : PyHeap → ℕ → PyHeap) (a : ℕ) (key : String) (v : PyPrim)
    (x : ℕ) (hstep : ∀ H r, keysAt (step H r) x = keysAt H x) :
    ∀ es H, keysAt (dudEntries step a key v H es) x = keysAt H x := by
  intro es
  induction es with
  | nil => intro H; rfl
  | cons kw rest ih =>
    intro H
    obtain ⟨k, w⟩ := kw
    cases w with
    | ref r =>
      rw [dudEntries]
      by_cases hk : k = key
      · rw [if_pos hk, ih, keysAt_replaceKeyAt]
      · rw [if_neg hk, ih, hstep]
    | prim p =>
      rw [dudEntries]
      by_cases hk : k = key
      · rw [if_pos hk, ih, keysAt_replaceKeyAt]
      · rw [if_neg hk, ih]

theorem dudGo_keys (key : String) (v : PyPrim) (x : ℕ) :
    ∀ fuel H a, keysAt (dudGo key v fuel H a) x = keysAt H x := by
  intro fuel
  induction fuel with
  | zero => intro H a; rfl
  | succ fuel ih =>
    intro H a
    rw [dudGo_succ]
    cases getAt H a with
    | none => rfl
    | some d => exact dudEntries_keys _ a key v x (fun H r => ih H r) d H

theorem dudEntries_find_prim (step : PyHeap → ℕ → PyHeap) (a : ℕ) (key : String) (v : PyPrim)
    (x : ℕ)
    (hstep : ∀ H r, dictFindAt H x key = some (PyVal.prim v) →
      dictFindAt (step H r) x key = some (PyVal.prim v)) :
    ∀ es H, dictFindAt H x key = some (PyVal.prim v) →
      dictFindAt (dudEntries step a key v H es) x key = some (PyVal.prim v) := by
  intro es
  induction es with
  | nil => intro H hfind; exact hfind
  | cons kw rest ih =>
    intro H hfind
    obtain ⟨k, w⟩ := kw
    have hrepl : dictFindAt (replaceKeyAt H a key (PyVal.prim v)) x key =
        some (PyVal.prim v) := by
      by_cases hx : x = a
      · subst hx
        apply dictFindAt_replaceKeyAt_self
        cases hga : getAt H x with
        | none => simp [dictFindAt, hga] at hfind
        | some d =>
          rw [dictFindAt_def hga] at hfind
          rw [keysAt_def hga]
          exact dictFind_isSome_iff.mp (by rw [hfind]; rfl)
      · rw [dictFindAt, replaceKeyAt, getAt_heapModify_ne _ _ hx]
        rw [dictFindAt] at hfind
        exact hfind
    cases w with
    | ref r =>
      rw [dudEntries]
      by_cases hk : k = key
      · rw [if_pos hk]
        exact ih _ hrepl
      · rw [if_neg hk]
        exact ih _ (hstep H r hfind)
    | prim p =>
      rw [dudEntries]
      by_cases hk : k = key
      · rw [if_pos hk]
        exact ih _ hrepl
      · rw [if_neg hk]
        exact ih _ hfind

theorem dudGo_find_prim (key : String) (v : PyPrim) (x : ℕ) :
    ∀ fuel H a, dictFindAt H x key = some (PyVal.prim v) →
      dictFindAt (dudGo key v fuel H a) x key = some (PyVal.prim v) := by
  intro fuel
  induction fuel with
  | zero => intro H a hfind; exact hfind
  | succ fuel ih =>
    intro H a hfind
    rw [dudGo_succ]
    cases getAt H a with
    | none => exact hfind
    | some d => exact dudEntries_find_prim _ a key v x (fun H r => ih H r) d H hfind

theorem dudEntries_untouched (step : PyHeap → ℕ → PyHeap) (a : ℕ) (key : String) (v : PyPrim)
    (c : ℕ) (hac : a ≠ c)
    (hstep : ∀ H r, noRefTo H c → r ≠ c → getAt (step H r) c = getAt H c ∧ noRefTo (step H r) c) :
    ∀ es H, noRefTo H c → (∀ kw ∈ es, Prod.snd kw ≠ PyVal.ref c) →
      getAt (dudEntries step a key v H es) c = getAt H c ∧
        noRefTo (dudEntries step a key v H es) c := by
  intro es
  induction es with
  | nil => intro H hno _; exact ⟨rfl, hno⟩
  | cons kw rest ih =>
    intro H hno hes
    obtain ⟨k, w⟩ := kw
    have hes' : ∀ kw ∈ rest, Prod.snd kw ≠ PyVal.ref c :=
      fun kw hkw => hes kw (List.mem_cons_of_mem _ hkw)
    cases w with
    | ref r =>
      rw [dudEntries]
      by_cases hk : k = key
      · rw [if_pos hk]
        obtain ⟨h1, h2⟩ := ih (replaceKeyAt H a key (PyVal.prim v))
          (noRefTo_replaceKeyAt a key v hno) hes'
        rw [h1, getAt_replaceKeyAt_ne _ _ _ (fun h => hac h.symm)]
        exact ⟨rfl, h2⟩
      · rw [if_neg hk]
        have hr : r ≠ c := by
          intro hrc
          exact hes (k, PyVal.ref r) (List.mem_cons_self _ _) (by rw [hrc])
        obtain ⟨s1, s2⟩ := hstep H r hno hr
        obtain ⟨h1, h2⟩ := ih (step H r) s2 hes'
        rw [h1, s1]
        exact ⟨rfl, h2⟩
    | prim p =>
      rw [dudEntries]
      by_cases hk : k = key
      · rw [if_pos hk]
        obtain ⟨h1, h2⟩ := ih (replaceKeyAt H a key (PyVal.prim v))
          (noRefTo_replaceKeyAt a key v hno) hes'
        rw [h1, getAt_replaceKeyAt_ne _ _ _ (fun h => hac h.symm)]
        exact ⟨rfl, h2⟩
      · rw [if_neg hk]
        exact ih H hno hes'

theorem dudGo_untouched (key : String) (v : PyPrim) (c : ℕ) :
    ∀ fuel H a, noRefTo H c → a ≠ c →
      getAt (dudGo key v fuel H a) c = getAt H c ∧ noRefTo (dudGo key v fuel H a) c := by
  intro fuel
  induction fuel with
  | zero => intro H a hno _; exact ⟨rfl, hno⟩
  | succ fuel ih =>
    intro H a hno hac
    rw [dudGo_succ]
    cases hga : getAt H a with
    | none => exact ⟨rfl, hno⟩
    | some d =>
      exact dudEntries_untouched _ a key v c hac (fun H r hno' hr => ih H r hno' hr) d H hno
        (fun kw hkw => hno d (getAt_mem hga) kw hkw)

theorem dudEntries_closed (step : PyHeap → ℕ → PyHeap) (a : ℕ) (key : String) (v : PyPrim)
    (L : ℕ) (hstep : ∀ H r, heapClosedBelow H L → heapClosedBelow (step H r) L) :
    ∀ es H, heapClosedBelow H L → heapClosedBelow (dudEntries step a key v H es) L := by
  intro es
  induction es with
  | nil => intro H hcl; exact hcl
  | cons kw rest ih =>
    intro H hcl
    obtain ⟨k, w⟩ := kw
    cases w with
    | ref r =>
      rw [dudEntries]
      by_cases hk : k = key
      · rw [if_pos hk]
        exact ih _ (heapClosedBelow_replaceKeyAt a key v hcl)
      · rw [if_neg hk]
        exact ih _ (hstep H r hcl)
    | prim p =>
      rw [dudEntries]
      by_cases hk : k = key
      · rw [if_pos hk]
        exact ih _ (heapClosedBelow_replaceKeyAt a key v hcl)
      · rw [if_neg hk]
        exact ih _ hcl

theorem dudGo_closed (key : String) (v : PyPrim) (L : ℕ) :
    ∀ fuel H a, heapClosedBelow H L → heapClosedBelow (dudGo key v fuel H a) L := by
  intro fuel
  induction fuel with
  | zero => intro H a hcl; exact hcl
  | succ fuel ih =>
    intro H a hcl
    rw [dudGo_succ]
    cases getAt H a with
    | none => exact hcl
    | some d => exact dudEntries_closed _ a key v L (fun H r hcl' => ih H r hcl') d H hcl

theorem dudEntries_hits (step : PyHeap → ℕ → PyHeap) (a : ℕ) (key : String) (v : PyPrim)
    (hkeys : ∀ H r x, keysAt (step H r) x = keysAt H x)
    (hpres : ∀ H r, dictFindAt H a key = some (PyVal.prim v) →
      dictFindAt (step H r) a key = some (PyVal.prim v)) :
    ∀ es H, key ∈ keysAt H a →
      (key ∈ dictKeys es ∨ dictFindAt H a key = some (PyVal.prim v)) →
      dictFindAt (dudEntries step a key v H es) a key = some (PyVal.prim v) := by
  intro es
  induction es with
  | nil =>
    intro H _ hdisj
    rcases hdisj with h | h
    · exact absurd h (List.not_mem_nil _)
    · exact h
  | cons kw rest ih =>
    intro H hmem hdisj
    obtain ⟨k, w⟩ := kw
    have hrepl : dictFindAt (replaceKeyAt H a key (PyVal.prim v)) a key =
        some (PyVal.prim v) := dictFindAt_replaceKeyAt_self H a key _ hmem
    have hmem₁ : ∀ H' : PyHeap, keysAt H' a = keysAt H a → key ∈ keysAt H' a :=
      fun H' he => he ▸ hmem
    cases w with
    | ref r =>
      rw [dudEntries]
      by_cases hk : k = key
      · rw [if_pos hk]
        exact ih _ (hmem₁ _ (keysAt_replaceKeyAt H a key _ a)) (Or.inr hrepl)
      · rw [if_neg hk]
        rcases hdisj with h | h
        · rw [dictKeys, List.mem_cons] at h
          rcases h with h | h
          · exact absurd h.symm hk
          · exact ih _ (hmem₁ _ (hkeys H r a)) (Or.inl h)
        · exact ih _ (hmem₁ _ (hkeys H r a)) (Or.inr (hpres H r h))
    | prim p =>
      rw [dudEntries]
      by_cases hk : k = key
      · rw [if_pos hk]
        exact ih _ (hmem₁ _ (keysAt_replaceKeyAt H a key _ a)) (Or.inr hrepl)
      · rw [if_neg hk]
        rcases hdisj with h | h
        · rw [dictKeys, List.mem_cons] at h
          rcases h with h | h
          · exact absurd h.symm hk
          · exact ih _ hmem (Or.inl h)
        · exact ih _ hmem (Or.inr h)

theorem dudGo_hits (key : String) (v : PyPrim) (fuel : ℕ) (H : PyHeap) (a : ℕ)
    (hmem : key ∈ keysAt H a) :
    dictFindAt (dudGo key v (fuel + 1) H a) a key = some (PyVal.prim v) := by
  rw [dudGo_succ]
  cases hga : getAt H a with
  | none => rw [keysAt, hga] at hmem; exact absurd hmem (List.not_mem_nil _)
  | some d =>
    refine dudEntries_hits _ a key v (fun H r x => dudGo_keys key v x fuel H r)
      (fun H r h => dudGo_find_prim key v a fuel H r h) d H hmem (Or.inl ?_)
    rw [keysAt_def hga] at hmem
    exact hmem

theorem dud_length (h : PyHeap) (root : PyVal) (key : String) (v : PyPrim) :
    (dictionary_update_deep h root key v).length = h.length := by
  cases root with
  | ref a => rw [dictionary_update_deep]; exact dudGo_length key v _ h a
  | prim p => rfl

theorem dud_find_ne (h : PyHeap) (root : PyVal) {key : String} (v : PyPrim) (x : ℕ)
    {k' : String} (hne : k' ≠ key) :
    dictFindAt (dictionary_update_deep h root key v) x k' = dictFindAt h x k' := by
  cases root with
  | ref a => rw [dictionary_update_deep]; exact dudGo_find_ne v x hne _ h a
  | prim p => rfl

theorem dud_keys (h : PyHeap) (root : PyVal) (key : String) (v : PyPrim) (x : ℕ) :
    keysAt (dictionary_update_deep h root key v) x = keysAt h x := by
  cases root with
  | ref a => rw [dictionary_update_deep]; exact dudGo_keys key v x _ h a
  | prim p => rfl

theorem dud_untouched (h : PyHeap) (root : PyVal) (key : String) (v : PyPrim) {c : ℕ}
    (hno : noRefTo h c) (hroot : root ≠ PyVal.ref c) :
    getAt (dictionary_update_deep h root key v) c = getAt h c ∧
      noRefTo (dictionary_update_deep h root key v) c := by
  cases root with
  | ref a =>
    rw [dictionary_update_deep]
    exact dudGo_untouched key v c _ h a hno (fun hac => hroot (by rw [hac]))
  | prim p => exact ⟨rfl, hno⟩

theorem dud_closed (h : PyHeap) (root : PyVal) (key : String) (v : PyPrim) {L : ℕ}
    (hcl : heapClosedBelow h L) :
    heapClosedBelow (dictionary_update_deep h root key v) L := by
  cases root with
  | ref a => rw [dictionary_update_deep]; exact dudGo_closed key v L _ h a hcl
  | prim p => exact hcl

theorem dud_hits (h : PyHeap) {b : ℕ} (key : String) (v : PyPrim)
    (hmem : key ∈ keysAt h b) :
    dictFindAt (dictionary_update_deep h (PyVal.ref b) key v) b key =
      some (PyVal.prim v) := by
  rw [dictionary_update_deep]
  exact dudGo_hits key v h.length h b hmem

theorem buildCellGo_parts (space : List Hyperparameter) :
    ∀ (cell : List (String × PyPrim)) (h : PyHeap) (c0 : ℕ) (parts : List String)
      (h' : PyHeap) (c' : ℕ) (parts' : List String),
      buildCellGo space h c0 cell parts = .ok (h', c', parts') →
      parts' = parts ++ cell.map labelEntry := by
  intro cell
  induction cell with
  | nil =>
    intro h c0 parts h' c' parts' hok
    rw [buildCellGo] at hok
    cases hga : getAt h c0 with
    | none => rw [hga] at hok; exact Except.noConfusion hok
    | some d =>
      rw [hga] at hok
      simp only [Except.ok.injEq, Prod.mk.injEq] at hok
      simp [hok.2.2]
  | cons kw rest ih =>
    intro h c0 parts h' c' parts' hok
    obtain ⟨param, v⟩ := kw
    rw [buildCellGo] at hok
    cases hm : metaOf space param with
    | none => rw [hm] at hok; exact Except.noConfusion hok
    | some key =>
      simp only [hm] at hok
      cases hga : getAt h c0 with
      | none => simp only [hga] at hok; exact Except.noConfusion hok
      | some d =>
        simp only [hga] at hok
        cases hf : dictFind d key with
        | none => simp only [hf] at hok; exact Except.noConfusion hok
        | some w =>
          simp only [hf] at hok
          rw [ih _ _ _ _ _ _ hok, List.map_cons, List.append_assoc]
          rfl

theorem buildConfiguration_label {h : PyHeap} {tmpl : ℕ} {space : List Hyperparameter}
    {cell : List (String × PyPrim)} {h' : PyHeap} {cfg : ExperimentConfig}
    (hok : buildConfiguration h tmpl space cell = .ok (h', cfg)) :
    cfg.label = String.intercalate "," (cell.map labelEntry) := by
  rw [buildConfiguration] at hok
  cases hgt : getAt h tmpl with
  | none => rw [hgt] at hok; exact Except.noConfusion hok
  | some dt =>
    simp only [hgt] at hok
    cases hgo : buildCellGo space (h ++ [dt]) h.length cell [] with
    | error e => simp only [hgo] at hok; exact Except.noConfusion hok
    | ok out =>
      obtain ⟨h'', c, parts⟩ := out
      simp only [hgo] at hok
      simp only [Except.ok.injEq, Prod.mk.injEq] at hok
      have hparts := buildCellGo_parts space cell (h ++ [dt]) h.length [] h'' c parts hgo
      rw [← hok.2, hparts]
      simp

/-- C6: for every assignment (grid cell) from which `configurations` successfully
builds an `ExperimentConfig`, the configuration's label equals the ordered,
comma-joined `name=value` pairs of the assignment, where numeric values are
rendered through `round(·, 6)` (`showPrim` applies `round6` to floats and leaves
ints unchanged) and non-numeric values appear unmodified
(experiment.py lines 187-197). -/
theorem label_is_joined_rounded_pairs {h : PyHeap} {tmpl : ℕ}
    {space : List Hyperparameter} {cell : List (String × PyPrim)} {h' : PyHeap}
    {cfg : ExperimentConfig}
    (hok : buildConfiguration h tmpl space cell = .ok (h', cfg)) :
    cfg.label = String.intercalate "," (cell.map (fun kw => kw.1 ++ "=" ++ showPrim kw.2)) :=
  buildConfiguration_label hok

theorem label_is_joined_rounded_pairs_witness :
    (ExperimentConfig.mk 3 "lr=3/2,opt=adam").label =
      String.intercalate ","
        ([("lr", PyPrim.float (mkRat 3 2)), ("opt", PyPrim.str "adam")].map
          (fun kw => kw.1 ++ "=" ++ showPrim kw.2)) :=
  @label_is_joined_rounded_pairs [[("model", .ref 1)], [("lr", .prim (.int 0))]] 0
    [⟨"lr", some "model"⟩, ⟨"opt", some "model"⟩]
    [("lr", PyPrim.float (mkRat 3 2)), ("opt", PyPrim.str "adam")]
    [[("model", .ref 1)], [("lr", .prim (.float (mkRat 3 2)))], [("model", .ref 1)],
      [("model", .ref 1)]]
    ⟨3, "lr=3/2,opt=adam"⟩ rfl

/-- C5, counterexample: the two assignments `[a=1, b=2]` and `[b=2, a=1]` define
the same name-to-value mapping (they are permutations of each other, with the
same lookups), yet `configurations` generates the labels `"a=1,b=2"` and
`"b=2,a=1"`, which differ bit-for-bit: the code joins the pairs in the
dictionary's iteration order and performs no canonical reordering by declared
hyperparameter order (experiment.py lines 189-196). -/
theorem label_insertion_order_dependent_cex :
    List.Perm [("a", PyPrim.int 1), ("b", PyPrim.int 2)]
      [("b", PyPrim.int 2), ("a", PyPrim.int 1)] ∧
    cellLookup [("a", PyPrim.int 1), ("b", PyPrim.int 2)] "a" =
      cellLookup [("b", PyPrim.int 2), ("a", PyPrim.int 1)] "a" ∧
    cellLookup [("a", PyPrim.int 1), ("b", PyPrim.int 2)] "b" =
      cellLookup [("b", PyPrim.int 2), ("a", PyPrim.int 1)] "b" ∧
    buildConfiguration [[("m", .ref 1)], [("a", .prim (.int 0)), ("b", .prim (.int 0))]] 0
      [⟨"a", some "m"⟩, ⟨"b", some "m"⟩] [("a", PyPrim.int 1), ("b", PyPrim.int 2)] =
      .ok ([[("m", .ref 1)], [("a", .prim (.int 1)), ("b", .prim (.int 2))],
        [("m", .ref 1)], [("m", .ref 1)]], ⟨3, "a=1,b=2"⟩) ∧
    buildConfiguration [[("m", .ref 1)], [("a", .prim (.int 0)), ("b", .prim (.int 0))]] 0
      [⟨"a", some "m"⟩, ⟨"b", some "m"⟩] [("b", PyPrim.int 2), ("a", PyPrim.int 1)] =
      .ok ([[("m", .ref 1)], [("a", .prim (.int 1)), ("b", .prim (.int 2))],
        [("m", .ref 1)], [("m", .ref 1)]], ⟨3, "b=2,a=1"⟩) ∧
    ("a=1,b=2" : String) ≠ "b=2,a=1" :=
  ⟨by decide, rfl, rfl, rfl, rfl, by decide⟩

/-- C5, amended: label generation is a pure, deterministic function of the
assignment's ordered name-value sequence alone — it does not depend on the
template, the heap, or the search space — but it is not independent of the
sequence's order: the pairs are joined in the iteration order of the grid
cell's dictionary (fixed by the external ConfigSpace library), and the code
performs no canonical reordering by declared hyperparameter order. -/
theorem label_depends_only_on_pair_sequence {h₁ h₂ : PyHeap} {t₁ t₂ : ℕ}
    {s₁ s₂ : List Hyperparameter} (cell : List (String × PyPrim)) {g₁ g₂ : PyHeap}
    {c₁ c₂ : ExperimentConfig}
    (hb₁ : buildConfiguration h₁ t₁ s₁ cell = .ok (g₁, c₁))
    (hb₂ : buildConfiguration h₂ t₂ s₂ cell = .ok (g₂, c₂)) :
    c₁.label = c₂.label := by
  rw [buildConfiguration_label hb₁, buildConfiguration_label hb₂]

theorem label_depends_only_on_pair_sequence_witness :
    (ExperimentConfig.mk 3 "x=4").label = (ExperimentConfig.mk 3 "x=4").label :=
  @label_depends_only_on_pair_sequence
    [[("m", .ref 1)], [("x", .prim (.int 0))]]
    [[("m", .ref 1)], [("x", .prim (.int 9)), ("y", .prim (.str "q"))]]
    0 0 [⟨"x", some "m"⟩] [⟨"x", some "m"⟩, ⟨"z", none⟩]
    [("x", PyPrim.int 4)]
    [[("m", .ref 1)], [("x", .prim (.int 4))], [("m", .ref 1)], [("m", .ref 1)]]
    [[("m", .ref 1)], [("x", .prim (.int 4)), ("y", .prim (.str "q"))], [("m", .ref 1)],
      [("m", .ref 1)]]
    ⟨3, "x=4"⟩ ⟨3, "x=4"⟩ rfl rfl

/-- C1, counterexample: building one RunConfiguration from the template at
address 0 (whose `model` stage is the dictionary at address 1 with `lr = 1`)
with the assignment `lr = 5` succeeds — and afterwards the template's own
`model` stage reads `lr = 5`: the `dict(...)` copy at experiment.py line 186 is
shallow, so the deep update writes through the shared stage dictionary and the
template is mutated by the expansion; moreover the built configuration's
`model` entry is the same reference `1` as the template's, shared mutable
substructure. -/
theorem buildConfiguration_mutates_template_cex :
    buildConfiguration [[("model", .ref 1)], [("lr", .prim (.int 1))]] 0
      [⟨"lr", some "model"⟩] [("lr", PyPrim.int 5)] =
      .ok ([[("model", .ref 1)], [("lr", .prim (.int 5))], [("model", .ref 1)],
        [("model", .ref 1)]], ⟨3, "lr=5"⟩) ∧
    dictFindAt [[("model", .ref 1)], [("lr", .prim (.int 1))]] 1 "lr" =
      some (.prim (.int 1)) ∧
    dictFindAt [[("model", .ref 1)], [("lr", .prim (.int 5))], [("model", .ref 1)],
      [("model", .ref 1)]] 0 "model" = some (.ref 1) ∧
    dictFindAt [[("model", .ref 1)], [("lr", .prim (.int 5))], [("model", .ref 1)],
      [("model", .ref 1)]] 1 "lr" = some (.prim (.int 5)) ∧
    dictFindAt [[("model", .ref 1)], [("lr", .prim (.int 5))], [("model", .ref 1)],
      [("model", .ref 1)]] 3 "model" = some (.ref 1) ∧
    some (PyVal.prim (PyPrim.int 5)) ≠ some (PyVal.prim (PyPrim.int 1)) :=
  ⟨rfl, rfl, rfl, rfl, rfl, by decide⟩

theorem refBelow_ne_ref {w : PyVal} {L c : ℕ} (hw : PyVal.refBelow w L) (hc : L ≤ c) :
    w ≠ PyVal.ref c := by
  cases w with
  | prim p => exact fun h => PyVal.noConfusion h
  | ref r =>
    intro h
    have : r = c := by injection h
    rw [PyVal.refBelow] at hw
    omega

theorem noRefTo_of_closed {h : PyHeap} {L c : ℕ} (hcl : heapClosedBelow h L)
    (hc : L ≤ c) : noRefTo h c :=
  fun d hd kw hkw => refBelow_ne_ref (hcl d hd kw hkw) hc

theorem heapClosedBelow_append {h : PyHeap} {L : ℕ} {d : PyDict}
    (hcl : heapClosedBelow h L) (hd : ∀ kw ∈ d, PyVal.refBelow (Prod.snd kw) L) :
    heapClosedBelow (h ++ [d]) L := by
  intro d' hd' kw hkw
  rcases List.mem_append.mp hd' with hmem | hmem
  · exact hcl d' hmem kw hkw
  · rw [List.mem_singleton] at hmem
    subst hmem
    exact hd kw hkw

theorem heapClosedBelow_at {h : PyHeap} {L : ℕ} {x : ℕ} {d : PyDict}
    (hcl : heapClosedBelow h L) (hga : getAt h x = some d) :
    ∀ kw ∈ d, PyVal.refBelow (Prod.snd kw) L :=
  fun kw hkw => hcl d (getAt_mem hga) kw hkw

theorem dictFindAt_append_lt (h : PyHeap) (d : PyDict) {a : ℕ} (ha : a < h.length)
    (k : String) : dictFindAt (h ++ [d]) a k = dictFindAt h a k := by
  rw [dictFindAt, dictFindAt, getAt_append_lt h d ha]

theorem keysAt_append_lt (h : PyHeap) (d : PyDict) {a : ℕ} (ha : a < h.length) :
    keysAt (h ++ [d]) a = keysAt h a := by
  rw [keysAt, keysAt, getAt_append_lt h d ha]

theorem refBelow_mono {w : PyVal} {L L' : ℕ} (hw : PyVal.refBelow w L) (hle : L ≤ L') :
    PyVal.refBelow w L' := by
  cases w with
  | prim p => trivial
  | ref r => rw [PyVal.refBelow] at hw ⊢; omega

theorem heapClosedBelow_mono {h : PyHeap} {L L' : ℕ} (hcl : heapClosedBelow h L)
    (hle : L ≤ L') : heapClosedBelow h L' :=
  fun d hd kw hkw => refBelow_mono (hcl d hd kw hkw) hle

/-- Evaluation of one `configurations` iteration on a single-hyperparameter cell
whose binding resolves to the stage dictionary at address `b`: the shallow copy
of the template is allocated at `h.length`, the deep update runs against the
*shared* stage dictionary at `b`, and the `ExperimentConfig`'s own copy lands at
address `h.length + 1`. -/
theorem buildConfiguration_single_step {h : PyHeap} {t b : ℕ} {dt : PyDict}
    {space : List Hyperparameter} {param skey : String} (v : PyPrim)
    (hcl : heapClosedBelow h h.length)
    (ht : getAt h t = some dt)
    (hmeta : metaOf space param = some skey)
    (hstage : dictFind dt skey = some (.ref b))
    (hblt : b < h.length) :
    buildConfiguration h t space [(param, v)] =
      .ok (dictionary_update_deep (h ++ [dt]) (.ref b) param v ++ [dt],
        ⟨h.length + 1, String.intercalate "," [labelEntry (param, v)]⟩) := by
  have hga1 : getAt (h ++ [dt]) h.length = some dt := getAt_append_self h dt
  have hcl1 : heapClosedBelow (h ++ [dt]) h.length :=
    heapClosedBelow_append hcl (heapClosedBelow_at hcl ht)
  have hno1 : noRefTo (h ++ [dt]) h.length := noRefTo_of_closed hcl1 (le_refl _)
  have hbneL : PyVal.ref b ≠ PyVal.ref h.length := by
    intro he
    have : b = h.length := by injection he
    omega
  have hunt := dud_untouched (h ++ [dt]) (.ref b) param v hno1 hbneL
  have hga2 : getAt (dictionary_update_deep (h ++ [dt]) (.ref b) param v) h.length =
      some dt := by rw [hunt.1, hga1]
  have hlen2 : (dictionary_update_deep (h ++ [dt]) (.ref b) param v).length =
      h.length + 1 := by
    rw [dud_length]
    simp
  rw [buildConfiguration, ht]
  simp only [buildCellGo, hmeta, hga1, hstage, hga2, hlen2, List.nil_append]

/-- C1, amended: `configurations` copies only the top level of the template
(`dict(self._raw_pipeline_config)`, experiment.py line 186), so every
RunConfiguration it produces shares the template's stage sub-dictionaries:
building twice from the same template yields two distinct top-level
`ExperimentConfig` objects whose stage entry is the *same* reference `b` as the
template's own stage entry, and the in-place deep update writes each
assignment's value through that shared dictionary, so after both builds the
template itself (and the first RunConfiguration) reads back the second
assignment's value. -/
theorem buildConfiguration_shares_and_mutates_template {h : PyHeap} {t b : ℕ}
    {dt db : PyDict} {space : List Hyperparameter} {param skey : String}
    (va vb : PyPrim)
    (hcl : heapClosedBelow h h.length)
    (ht : getAt h t = some dt)
    (hmeta : metaOf space param = some skey)
    (hne : skey ≠ param)
    (hstage : dictFind dt skey = some (.ref b))
    (hb : getAt h b = some db)
    (hparam : param ∈ dictKeys db) :
    ∃ hA lA hB lB,
      buildConfiguration h t space [(param, va)] = .ok (hA, ⟨h.length + 1, lA⟩) ∧
      buildConfiguration hA t space [(param, vb)] = .ok (hB, ⟨h.length + 3, lB⟩) ∧
      h.length + 1 ≠ h.length + 3 ∧
      dictFindAt hB t skey = some (.ref b) ∧
      dictFindAt hB (h.length + 1) skey = some (.ref b) ∧
      dictFindAt hB (h.length + 3) skey = some (.ref b) ∧
      dictFindAt hB b param = some (.prim vb) := by
  have hblt : b < h.length := getAt_some_lt hb
  have htlt : t < h.length := getAt_some_lt ht
  -- step A
  have hstepA := buildConfiguration_single_step va hcl ht hmeta hstage hblt
  set h2 : PyHeap := dictionary_update_deep (h ++ [dt]) (.ref b) param va with hh2
  set hA : PyHeap := h2 ++ [dt] with hhA
  have hlen2 : h2.length = h.length + 1 := by
    rw [hh2, dud_length]; simp
  have hlenA : hA.length = h.length + 2 := by
    rw [hhA]; simp [hlen2]
  -- the heap after step A is still closed below the original length
  have hcl1 : heapClosedBelow (h ++ [dt]) h.length :=
    heapClosedBelow_append hcl (heapClosedBelow_at hcl ht)
  have hcl2 : heapClosedBelow h2 h.length := dud_closed _ _ _ _ hcl1
  have hclA : heapClosedBelow hA h.length :=
    heapClosedBelow_append hcl2 (heapClosedBelow_at hcl ht)
  -- template lookups survive step A at every key other than `param`
  have hfat : dictFindAt hA t skey = some (.ref b) := by
    rw [hhA, dictFindAt_append_lt _ _ (by omega), hh2,
      dud_find_ne _ _ _ _ hne, dictFindAt_append_lt _ _ htlt, dictFindAt_def ht]
    exact hstage
  obtain ⟨dt', hgat'⟩ := getAt_isSome_of_lt (show t < hA.length by omega)
  have hft' : dictFind dt' skey = some (.ref b) := by
    rw [dictFindAt, hgat'] at hfat
    exact hfat
  -- step B, built from `hA` and the current template dictionary `dt'`
  have hstepB := @buildConfiguration_single_step hA t b dt' space param skey vb
    (heapClosedBelow_mono hclA (by omega)) hgat' hmeta hft' (by omega)
  set h2' : PyHeap := dictionary_update_deep (hA ++ [dt']) (.ref b) param vb with hh2'
  set hB : PyHeap := h2' ++ [dt'] with hhB
  have hlen2' : h2'.length = h.length + 3 := by
    rw [hh2', dud_length]; simp [hlenA]
  refine ⟨hA, String.intercalate "," [labelEntry (param, va)], hB,
    String.intercalate "," [labelEntry (param, vb)], hstepA, ?_, by omega, ?_, ?_, ?_, ?_⟩
  · rw [hlenA] at hstepB
    exact hstepB
  -- the template still holds the shared stage reference
  · rw [hhB, dictFindAt_append_lt _ _ (by omega), hh2',
      dud_find_ne _ _ _ _ hne, dictFindAt_append_lt _ _ (by omega)]
    exact hfat
  -- the first RunConfiguration holds the shared stage reference
  · have e1 : getAt hA (h.length + 1) = some dt := by
      rw [hhA, ← hlen2, getAt_append_self]
    have hga2A : dictFindAt hA (h.length + 1) skey = some (.ref b) := by
      rw [dictFindAt_def e1]
      exact hstage
    rw [hhB, dictFindAt_append_lt _ _ (by omega), hh2',
      dud_find_ne _ _ _ _ hne, dictFindAt_append_lt _ _ (by omega)]
    exact hga2A
  -- the second RunConfiguration holds the shared stage reference
  · have e2 : getAt hB (h.length + 3) = some dt' := by
      rw [hhB, ← hlen2', getAt_append_self]
    rw [dictFindAt_def e2]
    exact hft'
  -- and the shared stage dictionary now stores the second assignment's value
  · have hkeys : param ∈ keysAt (hA ++ [dt']) b := by
      rw [keysAt_append_lt _ _ (by omega), hhA, keysAt_append_lt _ _ (by omega), hh2,
        dud_keys, keysAt_append_lt _ _ hblt, keysAt_def hb]
      exact hparam
    have hhit : dictFindAt h2' b param = some (.prim vb) := by
      rw [hh2']
      exact dud_hits _ param vb hkeys
    rw [hhB, dictFindAt_append_lt _ _ (by omega)]
    exact hhit

theorem buildConfiguration_shares_and_mutates_template_witness :
    ∃ hA lA hB lB,
      buildConfiguration [[("model", .ref 1)], [("lr", .prim (.int 1))]] 0
        [⟨"lr", some "model"⟩] [("lr", PyPrim.int 5)] = .ok (hA, ⟨3, lA⟩) ∧
      buildConfiguration hA 0 [⟨"lr", some "model"⟩] [("lr", PyPrim.int 7)] =
        .ok (hB, ⟨5, lB⟩) ∧
      (3 : ℕ) ≠ 5 ∧
      dictFindAt hB 0 "model" = some (.ref 1) ∧
      dictFindAt hB 3 "model" = some (.ref 1) ∧
      dictFindAt hB 5 "model" = some (.ref 1) ∧
      dictFindAt hB 1 "lr" = some (.prim (.int 7)) :=
  buildConfiguration_shares_and_mutates_template (PyPrim.int 5) (PyPrim.int 7)
    (by decide) rfl rfl (by decide) rfl rfl (by decide)

theorem buildCellGo_bad {space : List Hyperparameter} {dt : PyDict} {c0 : ℕ} :
    ∀ (cell : List (String × PyPrim)) (H : PyHeap) (parts : List String),
      getAt H c0 = some dt →
      noRefTo H c0 →
      (∀ kw ∈ dt, Prod.snd kw ≠ PyVal.ref c0) →
      (∃ kw ∈ cell, badBinding space dt kw.1) →
      ∃ msg, buildCellGo space H c0 cell parts = .error (.valueError msg) := by
  intro cell
  induction cell with
  | nil =>
    intro H parts _ _ _ hbad
    obtain ⟨kw, hkw, _⟩ := hbad
    exact absurd hkw (List.not_mem_nil _)
  | cons kw rest ih =>
    intro H parts hga hno hdt hbad
    obtain ⟨p, v⟩ := kw
    cases hm : metaOf space p with
    | none =>
      exact ⟨"No meta config value specified for ConfigSpace hyperparameter",
        by simp only [buildCellGo, hm]⟩
    | some key =>
      cases hf : dictFind dt key with
      | none =>
        exact ⟨"No dictionary associated with provided meta config value " ++ key,
          by simp only [buildCellGo, hm, hga, hf]⟩
      | some w =>
        have hwne : w ≠ PyVal.ref c0 := hdt (key, w) (dictFind_mem hf)
        have hunt := dud_untouched H w p v hno hwne
        have hga' : getAt (dictionary_update_deep H w p v) c0 = some dt := by
          rw [hunt.1, hga]
        have hbad' : ∃ kw ∈ rest, badBinding space dt kw.1 := by
          obtain ⟨kw', hkw', hbb⟩ := hbad
          rcases List.mem_cons.mp hkw' with he | hmem
          · exfalso
            subst he
            rcases hbb with hb1 | ⟨key', hk1, hk2⟩
            · rw [hm] at hb1; exact Option.noConfusion hb1
            · rw [hm] at hk1
              have : key = key' := by injection hk1
              subst this
              rw [hf] at hk2
              exact Option.noConfusion hk2
          · exact ⟨kw', hmem, hbb⟩
        obtain ⟨msg, hmsg⟩ := ih (dictionary_update_deep H w p v)
          (parts ++ [labelEntry (p, v)]) hga' hunt.2 hdt hbad'
        exact ⟨msg, by simp only [buildCellGo, hm, hga, hf]; exact hmsg⟩

/-- C4: for every grid cell containing a hyperparameter whose bound stage key
(or binding declaration) does not resolve inside the template, configuration
building fails with the `ValueError` realizing the spec's
`UnboundHyperparameter` (experiment.py lines 189-194), and the failure happens
before any pipeline invocation: running that configuration performs zero
`run_pipeline` calls. -/
theorem unbound_hyperparameter_fails_before_pipeline {R E : Type} {h : PyHeap}
    {tmpl : ℕ} {dt : PyDict} {space : List Hyperparameter}
    {cell : List (String × PyPrim)} (pipe : ExperimentConfig → ℕ → Except E R)
    (reps : ℤ)
    (hcl : heapClosedBelow h h.length)
    (ht : getAt h tmpl = some dt)
    (hbad : ∃ kw ∈ cell, badBinding space dt kw.1) :
    ∃ msg, buildConfiguration h tmpl space cell = .error (.valueError msg) ∧
      runOneConfiguration h tmpl space cell pipe reps =
        (.error (.inl (.valueError msg)), 0) := by
  have hga0 : getAt (h ++ [dt]) h.length = some dt := getAt_append_self h dt
  have hcl1 : heapClosedBelow (h ++ [dt]) h.length :=
    heapClosedBelow_append hcl (heapClosedBelow_at hcl ht)
  have hno0 : noRefTo (h ++ [dt]) h.length := noRefTo_of_closed hcl1 (le_refl _)
  have hdt0 : ∀ kw ∈ dt, Prod.snd kw ≠ PyVal.ref h.length :=
    fun kw hkw => refBelow_ne_ref (heapClosedBelow_at hcl ht kw hkw) (le_refl _)
  obtain ⟨msg, hmsg⟩ := buildCellGo_bad cell (h ++ [dt]) [] hga0 hno0 hdt0 hbad
  have hbc : buildConfiguration h tmpl space cell = .error (.valueError msg) := by
    rw [buildConfiguration, ht]
    simp only [hmsg]
  exact ⟨msg, hbc, by rw [runOneConfiguration, hbc]⟩

theorem unbound_hyperparameter_fails_before_pipeline_witness :
    ∃ msg,
      buildConfiguration [[("model", .ref 1)], [("x", .prim (.int 0))]] 0
        [⟨"lr", some "optim"⟩] [("lr", PyPrim.int 5)] = .error (.valueError msg) ∧
      runOneConfiguration [[("model", .ref 1)], [("x", .prim (.int 0))]] 0
        [⟨"lr", some "optim"⟩] [("lr", PyPrim.int 5)]
        (fun _ _ => (.ok 0 : Except String ℕ)) 3 =
        (.error (.inl (.valueError msg)), 0) :=
  unbound_hyperparameter_fails_before_pipeline (fun _ _ => (.ok 0 : Except String ℕ)) 3
    (by decide) rfl ⟨("lr", PyPrim.int 5), List.mem_singleton.mpr rfl,
      Or.inr ⟨"optim", rfl, rfl⟩⟩

theorem runGo_ok {M Mg C R E : Type} (p : Pipeline M Mg C R E) (cfg : C) (mp : PyDict)
    (f : ℕ → R) :
    ∀ (is : List ℕ) (acc : List R),
      (∀ i ∈ is, p.runPipeline (p.setModel (p.newManager ()) (p.modelOf mp)) cfg i =
        .ok (f i)) →
      Experiment.runGo p cfg mp is acc = (.ok (), acc ++ is.map f) := by
  intro is
  induction is with
  | nil => intro acc _; simp [Experiment.runGo]
  | cons i is ih =>
    intro acc hok
    rw [Experiment.runGo, hok i (List.mem_cons_self _ _)]
    show Experiment.runGo p cfg mp is (acc ++ [f i]) = _
    rw [ih (acc ++ [f i]) (fun j hj => hok j (List.mem_cons_of_mem _ hj))]
    simp

theorem runGo_append {M Mg C R E : Type} (p : Pipeline M Mg C R E) (cfg : C)
    (mp : PyDict) :
    ∀ (is₁ is₂ : List ℕ) (acc : List R),
      Experiment.runGo p cfg mp (is₁ ++ is₂) acc =
        match Experiment.runGo p cfg mp is₁ acc with
        | (.ok _, acc') => Experiment.runGo p cfg mp is₂ acc'
        | (.error e, acc') => (.error e, acc') := by
  intro is₁
  induction is₁ with
  | nil => intro is₂ acc; rfl
  | cons i is ih =>
    intro is₂ acc
    rw [List.cons_append, Experiment.runGo, Experiment.runGo]
    cases p.runPipeline (p.setModel (p.newManager ()) (p.modelOf mp)) cfg i with
    | ok r => exact ih is₂ (acc ++ [r])
    | error e => rfl

/-- C7: for every configuration and every repeat count at least 1, if each of
the `repeat` pipeline invocations (each made on a freshly instantiated model
built from the configuration's model params, bound into a freshly instantiated
manager) succeeds, then `Experiment.run` performs exactly `repeat` executions
and its internal result set holds exactly the `repeat` returned RunResults in
execution order. -/
theorem experiment_run_executes_repeat_pipeline_runs {M Mg C R E : Type}
    (p : Pipeline M Mg C R E) (cfg : C) (mp : PyDict) (reps : ℤ) (f : ℕ → R)
    (_hreps : 1 ≤ reps)
    (hok : ∀ i < reps.toNat,
      p.runPipeline (p.setModel (p.newManager ()) (p.modelOf mp)) cfg i = .ok (f i)) :
    Experiment.run p cfg mp reps = (.ok (), (List.range reps.toNat).map f) := by
  rw [Experiment.run, runGo_ok p cfg mp f _ [] (fun i hi => hok i (List.mem_range.mp hi))]
  simp

theorem experiment_run_executes_repeat_pipeline_runs_witness :
    Experiment.run
      (Pipeline.mk (fun _ => ()) (fun _ => ()) (fun _ _ => ())
        (fun _ _ i => (.ok i : Except String ℕ))) () [] 2 =
      (.ok (), [0, 1]) :=
  experiment_run_executes_repeat_pipeline_runs
    (Pipeline.mk (fun _ => ()) (fun _ => ()) (fun _ _ => ())
      (fun _ _ i => (.ok i : Except String ℕ))) () [] 2 (fun i => i)
    (by decide) (fun i _ => rfl)

/-- C2, counterexample: two pipelines — one failing on its first invocation,
one failing on its second — raise the *same* exception value from
`Experiment.run` even though the internal partial result sets differ (0 vs. 1
collected RunResults): the error surfaced by the repeat loop is the pipeline's
own exception and carries neither the partial RunResultSet nor the failing
index; no `RunFailed` wrapper exists anywhere in the code. -/
theorem run_failure_error_carries_no_partial_results_cex :
    (Experiment.run
      ((Pipeline.mk (fun _ => ()) (fun _ => ()) (fun _ _ => ())
        (fun _ _ _ => .error "boom")) : Pipeline Unit Unit Unit ℕ String) () [] 3).1 =
    (Experiment.run
      (Pipeline.mk (fun _ => ()) (fun _ => ()) (fun _ _ => ())
        (fun _ _ i => if i = 0 then .ok 7 else (.error "boom" : Except String ℕ)))
      () [] 3).1 ∧
    (Experiment.run
      ((Pipeline.mk (fun _ => ()) (fun _ => ()) (fun _ _ => ())
        (fun _ _ _ => .error "boom")) : Pipeline Unit Unit Unit ℕ String) () [] 3).2 = [] ∧
    (Experiment.run
      (Pipeline.mk (fun _ => ()) (fun _ => ()) (fun _ _ => ())
        (fun _ _ i => if i = 0 then .ok 7 else (.error "boom" : Except String ℕ)))
      () [] 3).2 = [7] ∧
    ([] : List ℕ) ≠ [7] :=
  ⟨rfl, rfl, rfl, by decide⟩

/-- C2, amended: when the pipeline raises on repeat `k + 1` (0-based index `k`)
of `reps`, `Experiment.run` propagates the pipeline's own exception unchanged
and the `k` previously returned RunResults remain only in the `Experiment`'s
internal result set — they are not attached to the raised error.  In
particular a pipeline failing on repeat 2 of 3 leaves exactly 1 RunResult
there. -/
theorem experiment_run_failure_preserves_prior_results {M Mg C R E : Type}
    (p : Pipeline M Mg C R E) (cfg : C) (mp : PyDict) (reps : ℤ) (k : ℕ)
    (f : ℕ → R) (e : E)
    (hk : k < reps.toNat)
    (hok : ∀ i < k,
      p.runPipeline (p.setModel (p.newManager ()) (p.modelOf mp)) cfg i = .ok (f i))
    (herr : p.runPipeline (p.setModel (p.newManager ()) (p.modelOf mp)) cfg k =
      .error e) :
    Experiment.run p cfg mp reps = (.error e, (List.range k).map f) := by
  have hsplit : List.range reps.toNat =
      (List.range k ++ [k]) ++ (List.range (reps.toNat - (k + 1))).map ((k + 1) + ·) := by
    rw [← List.range_succ, ← List.range_add]
    congr 1
    omega
  rw [Experiment.run, hsplit, runGo_append, runGo_append]
  rw [runGo_ok p cfg mp f _ [] (fun i hi => hok i (List.mem_range.mp hi))]
  show (match Experiment.runGo p cfg mp [k] ([] ++ (List.range k).map f) with
    | (Except.ok _, acc') => Experiment.runGo p cfg mp
        ((List.range (reps.toNat - (k + 1))).map ((k + 1) + ·)) acc'
    | (Except.error e', acc') => (Except.error e', acc')) = _
  rw [Experiment.runGo, herr]
  simp

theorem experiment_run_failure_preserves_prior_results_witness :
    Experiment.run
      (Pipeline.mk (fun _ => ()) (fun _ => ()) (fun _ _ => ())
        (fun _ _ i => if i = 0 then .ok 7 else (.error "boom" : Except String ℕ)))
      () [] 3 = (.error "boom", [7]) :=
  experiment_run_failure_preserves_prior_results
    (Pipeline.mk (fun _ => ()) (fun _ => ()) (fun _ _ => ())
      (fun _ _ i => if i = 0 then .ok 7 else (.error "boom" : Except String ℕ)))
    () [] 3 1 (fun _ => 7) "boom" (by decide)
    (fun i hi => by
      have : i = 0 := by omega
      subst this
      rfl)
    rfl

/-- C3, counterexample: `Experiment.run` with `repeat = 0` (a repeat count
strictly less than 1) raises no error at all — there is no
`InvalidRepeatCount` validation anywhere in the code — it simply runs the
pipeline zero times and returns successfully with an empty result set. -/
theorem run_repeat_zero_no_error_cex :
    Experiment.run
      ((Pipeline.mk (fun _ => ()) (fun _ => ()) (fun _ _ => ())
        (fun _ _ _ => .error "boom")) : Pipeline Unit Unit Unit ℕ String) () [] 0 =
      (.ok (), []) := rfl

/-- C3, amended: no repeat-count validation exists: for every repeat count at
most 0, `for run in range(repeat)` iterates zero times, so `Experiment.run`
performs no pipeline execution and returns successfully with an empty internal
result set, raising no error (and a fortiori no `InvalidRepeatCount`, which
appears nowhere in the code). -/
theorem run_nonpositive_repeat_silently_succeeds {M Mg C R E : Type}
    (p : Pipeline M Mg C R E) (cfg : C) (mp : PyDict) (reps : ℤ)
    (hreps : reps ≤ 0) :
    Experiment.run p cfg mp reps = (.ok (), []) := by
  rw [Experiment.run, Int.toNat_of_nonpos hreps]
  rfl

theorem run_nonpositive_repeat_silently_succeeds_witness :
    Experiment.run
      ((Pipeline.mk (fun _ => ()) (fun _ => ()) (fun _ _ => ())
        (fun _ _ _ => .error "boom")) : Pipeline Unit Unit Unit ℕ String) () [] (-2) =
      (.ok (), []) :=
  run_nonpositive_repeat_silently_succeeds _ () [] (-2) (by decide)

theorem collate_spec {β : Type} :
    ∀ (rest acc : List (String × β)),
      ((acc.map Prod.fst ++ rest.map Prod.fst).Nodup →
        ExperimentManager.collate rest acc = .ok (acc ++ rest)) ∧
      ((acc.map Prod.fst).Nodup → ¬(acc.map Prod.fst ++ rest.map Prod.fst).Nodup →
        ∃ k, ExperimentManager.collate rest acc = .error (.duplicateLabel k)) := by
  intro rest
  induction rest with
  | nil =>
    intro acc
    constructor
    · intro _
      rw [ExperimentManager.collate, List.append_nil]
    · intro hnd hnnd
      exfalso
      apply hnnd
      simpa using hnd
  | cons kw rest ih =>
    intro acc
    obtain ⟨key, r⟩ := kw
    by_cases hmem : key ∈ acc.map Prod.fst
    · constructor
      · intro hnd
        exfalso
        rw [List.map_cons, List.nodup_append] at hnd
        exact hnd.2.2 hmem (List.mem_cons_self _ _)
      · intro _ _
        refine ⟨key, ?_⟩
        rw [ExperimentManager.collate, ExperimentResultSet.add_result, if_pos hmem]
    · have hstep : ExperimentManager.collate ((key, r) :: rest) acc =
          ExperimentManager.collate rest (acc ++ [(key, r)]) := by
        rw [ExperimentManager.collate, ExperimentResultSet.add_result, if_neg hmem]
      have hkeys : (acc ++ [(key, r)]).map Prod.fst = acc.map Prod.fst ++ [key] := by
        simp
      constructor
      · intro hnd
        rw [hstep]
        have hnd' : ((acc ++ [(key, r)]).map Prod.fst ++ rest.map Prod.fst).Nodup := by
          rw [hkeys, List.append_assoc, List.singleton_append]
          simpa using hnd
        rw [(ih (acc ++ [(key, r)])).1 hnd', List.append_assoc, List.singleton_append]
      · intro hnd hnnd
        rw [hstep]
        have hnd' : ((acc ++ [(key, r)]).map Prod.fst).Nodup := by
          rw [hkeys]
          refine List.Nodup.append hnd (List.nodup_singleton key) ?_
          intro x hx hx'
          rw [List.mem_singleton] at hx'
          subst hx'
          exact hmem hx
        have hnnd' : ¬((acc ++ [(key, r)]).map Prod.fst ++ rest.map Prod.fst).Nodup := by
          rw [hkeys, List.append_assoc, List.singleton_append]
          intro hc
          exact hnnd (by simpa using hc)
        exact (ih (acc ++ [(key, r)])).2 hnd' hnnd'

/-- C8: the `run_experiments` collation never overwrites a key of the
`ExperimentResultSet`: it succeeds, returning the pairs exactly in grid order,
precisely when all labels are distinct, and whenever two configurations
canonicalize to the same label it fails fast with `DuplicateLabel` instead of
overwriting the earlier configuration's aggregate. -/
theorem run_experiments_duplicate_label {β : Type} (items : List (String × β)) :
    (ExperimentManager.run_experiments_collation items = .ok items ↔
      (items.map Prod.fst).Nodup) ∧
    (¬(items.map Prod.fst).Nodup →
      ∃ k, ExperimentManager.run_experiments_collation items =
        .error (.duplicateLabel k)) := by
  have hspec := collate_spec items []
  constructor
  · constructor
    · intro hok
      by_contra hnd
      obtain ⟨k, hk⟩ := hspec.2 (by simp) (by simpa using hnd)
      rw [ExperimentManager.run_experiments_collation] at hok
      rw [hok] at hk
      exact Except.noConfusion hk
    · intro hnd
      rw [ExperimentManager.run_experiments_collation]
      have := hspec.1 (by simpa using hnd)
      simpa using this
  · intro hnd
    obtain ⟨k, hk⟩ := hspec.2 (by simp) (by simpa using hnd)
    exact ⟨k, hk⟩

theorem run_experiments_duplicate_label_witness :
    (∃ k, ExperimentManager.run_experiments_collation
      [("lr=0.1", (0 : ℕ)), ("lr=0.1", 1)] = .error (.duplicateLabel k)) ∧
    ExperimentManager.run_experiments_collation [("lr=0.1", (0 : ℕ)), ("lr=0.2", 1)] =
      .ok [("lr=0.1", 0), ("lr=0.2", 1)] :=
  ⟨(run_experiments_duplicate_label [("lr=0.1", (0 : ℕ)), ("lr=0.1", 1)]).2 (by decide),
    (run_experiments_duplicate_label [("lr=0.1", (0 : ℕ)), ("lr=0.2", 1)]).1.mpr (by decide)⟩

theorem differentFrom_ne (o : Option PyVal) : some (differentFrom o) ≠ o := by
  cases o with
  | none => exact fun h => Option.noConfusion h
  | some w =>
    cases w with
    | ref a => rw [differentFrom]; intro hc; injection hc with hc'; exact PyVal.noConfusion hc'
    | prim p =>
      cases p with
      | int n =>
        rw [differentFrom]
        intro hc
        injection hc with hc'
        injection hc' with hc''
        injection hc'' with hc'''
        omega
      | float q =>
        rw [differentFrom]
        intro hc
        injection hc with hc'
        injection hc' with hc''
        exact PyPrim.noConfusion hc''
      | str s =>
        rw [differentFrom]
        intro hc
        injection hc with hc'
        injection hc' with hc''
        exact PyPrim.noConfusion hc''

/-- The common fresh-copy behavior of the four `dict(...)`-wrapping getters
(experiment.py lines 55-101): the returned dictionary is a freshly allocated
shallow copy living at the next free address `h.length`, so mutating it at the
top level leaves every pre-existing heap object unchanged. -/
theorem get_stage_params_copy_fresh {h : PyHeap} {c : ℕ} {stage : String} {b : ℕ}
    {d : PyDict}
    (hb : ExperimentConfig.stage_params_addr h c stage = some b)
    (hgd : getAt h b = some d) :
    ExperimentConfig.get_stage_params_copy h c stage = some (h ++ [d], h.length) ∧
    (∀ (k : String) (v : PyVal) (x : ℕ), x < h.length →
      getAt (setKeyAt (h ++ [d]) h.length k v) x = getAt h x) := by
  constructor
  · rw [ExperimentConfig.get_stage_params_copy]
    simp only [hb, hgd]
    rfl
  · intro k v x hx
    rw [setKeyAt, getAt_heapModify_ne _ _ (by omega), getAt_append_lt _ _ hx]

/-- C9: each of the four copying getters — `get_model_params`,
`get_preprocessing_params`, `get_training_params`, `get_validation_params` —
returns a *freshly allocated* shallow copy (address `h.length`, the next free
address), so any top-level mutation of the returned dictionary leaves every
pre-existing heap object — in particular the stored configuration — unchanged;
`get_testing_params` instead returns the address of the *stored* test params
dictionary itself, and some top-level mutation of that returned dictionary
changes the configuration's stored test params. -/
theorem params_getters_copy_semantics (h : PyHeap) (c : ℕ)
    (bm bp btr bv bt : ℕ) (dm dp dtr dv dtest : PyDict)
    (hm : ExperimentConfig.stage_params_addr h c "model" = some bm)
    (hgm : getAt h bm = some dm)
    (hp : ExperimentConfig.stage_params_addr h c "preprocess" = some bp)
    (hgp : getAt h bp = some dp)
    (htr : ExperimentConfig.stage_params_addr h c "train" = some btr)
    (hgtr : getAt h btr = some dtr)
    (hv : ExperimentConfig.stage_params_addr h c "validate" = some bv)
    (hgv : getAt h bv = some dv)
    (htst : ExperimentConfig.stage_params_addr h c "test" = some bt)
    (hgt : getAt h bt = some dtest) :
    (ExperimentConfig.get_model_params h c = some (h ++ [dm], h.length) ∧
      ∀ (k : String) (v : PyVal) (x : ℕ), x < h.length →
        getAt (setKeyAt (h ++ [dm]) h.length k v) x = getAt h x) ∧
    (ExperimentConfig.get_preprocessing_params h c = some (h ++ [dp], h.length) ∧
      ∀ (k : String) (v : PyVal) (x : ℕ), x < h.length →
        getAt (setKeyAt (h ++ [dp]) h.length k v) x = getAt h x) ∧
    (ExperimentConfig.get_training_params h c = some (h ++ [dtr], h.length) ∧
      ∀ (k : String) (v : PyVal) (x : ℕ), x < h.length →
        getAt (setKeyAt (h ++ [dtr]) h.length k v) x = getAt h x) ∧
    (ExperimentConfig.get_validation_params h c = some (h ++ [dv], h.length) ∧
      ∀ (k : String) (v : PyVal) (x : ℕ), x < h.length →
        getAt (setKeyAt (h ++ [dv]) h.length k v) x = getAt h x) ∧
    ExperimentConfig.get_testing_params h c = some bt ∧
    bt < h.length ∧
    (∃ (k : String) (v : PyVal),
      dictFindAt (setKeyAt h bt k v) bt k ≠ dictFindAt h bt k) := by
  refine ⟨get_stage_params_copy_fresh hm hgm, get_stage_params_copy_fresh hp hgp,
    get_stage_params_copy_fresh htr hgtr, get_stage_params_copy_fresh hv hgv,
    ?_, getAt_some_lt hgt, ?_⟩
  · rw [ExperimentConfig.get_testing_params, htst]
  · refine ⟨"", differentFrom (dictFind dtest ""), ?_⟩
    rw [dictFindAt_def hgt]
    have hset : getAt (setKeyAt h bt "" (differentFrom (dictFind dtest ""))) bt =
        some (dictSet dtest "" (differentFrom (dictFind dtest ""))) := by
      rw [setKeyAt, getAt_heapModify_self, hgt]
      rfl
    rw [dictFindAt_def hset, dictFind_set_self]
    exact differentFrom_ne _

theorem params_getters_copy_semantics_witness :
    (ExperimentConfig.get_model_params paramsWitnessHeap 0 =
        some (paramsWitnessHeap ++ [[("lr", .prim (.int 1))]], 11) ∧
      ∀ (k : String) (v : PyVal) (x : ℕ), x < 11 →
        getAt (setKeyAt (paramsWitnessHeap ++ [[("lr", .prim (.int 1))]]) 11 k v) x =
          getAt paramsWitnessHeap x) ∧
    (ExperimentConfig.get_preprocessing_params paramsWitnessHeap 0 =
        some (paramsWitnessHeap ++ [[("window", .prim (.int 3))]], 11) ∧
      ∀ (k : String) (v : PyVal) (x : ℕ), x < 11 →
        getAt (setKeyAt (paramsWitnessHeap ++ [[("window", .prim (.int 3))]]) 11 k v) x =
          getAt paramsWitnessHeap x) ∧
    (ExperimentConfig.get_training_params paramsWitnessHeap 0 =
        some (paramsWitnessHeap ++ [[("epochs", .prim (.int 5))]], 11) ∧
      ∀ (k : String) (v : PyVal) (x : ℕ), x < 11 →
        getAt (setKeyAt (paramsWitnessHeap ++ [[("epochs", .prim (.int 5))]]) 11 k v) x =
          getAt paramsWitnessHeap x) ∧
    (ExperimentConfig.get_validation_params paramsWitnessHeap 0 =
        some (paramsWitnessHeap ++ [[("freq", .prim (.int 7))]], 11) ∧
      ∀ (k : String) (v : PyVal) (x : ℕ), x < 11 →
        getAt (setKeyAt (paramsWitnessHeap ++ [[("freq", .prim (.int 7))]]) 11 k v) x =
          getAt paramsWitnessHeap x) ∧
    ExperimentConfig.get_testing_params paramsWitnessHeap 0 = some 10 ∧
    (10 : ℕ) < 11 ∧
    (∃ (k : String) (v : PyVal),
      dictFindAt (setKeyAt paramsWitnessHeap 10 k v) 10 k ≠
        dictFindAt paramsWitnessHeap 10 k) :=
  params_getters_copy_semantics paramsWitnessHeap 0 2 4 6 8 10
    [("lr", .prim (.int 1))] [("window", .prim (.int 3))] [("epochs", .prim (.int 5))]
    [("freq", .prim (.int 7))] [("bs", .prim (.int 2))]
    rfl rfl rfl rfl rfl rfl rfl rfl rfl rfl

/-- C10: for every argument tuple, constructing an `invest.store.Store` raises
`TypeError` and never yields an instance: the constructor's final statement
`self.process(self)` passes the bound method `process` one positional argument
beyond `self`, although `process` is defined to accept only `self`, so the
call fails during argument binding on every construction. -/
theorem store_construction_always_raises_typeerror {α : Type} (md : α)
    (ac cc gc : List α) (ms b yr : α) :
    Invest.Store.init md ac cc gc ms b yr = .error Invest.StoreErr.typeError := rfl
